import Mathlib

/-!
Verification of the strip-board scheduling core of a film-production
management application: the page-count arithmetic, the strip reorder
route, the day-break toggle and renumber routes, and the derived
day-segment / shoot-date / day-out-of-days computations.

JavaScript strings are modelled as lists of characters; JavaScript
numbers are modelled as exact rationals, extended with NaN and the
infinities (`JSNum`) where non-finite values can arise.  Database
integer columns are modelled as `Int`.
-/

namespace StripBoard

/-- JavaScript number values as they arise in the page-count arithmetic:
finite values (exact rationals; every value reachable here is a dyadic
rational on which double-precision arithmetic is exact) plus the
non-finite values NaN and the two infinities. -/
inductive JSNum where
  | nan : JSNum
  | inf : JSNum
  | neginf : JSNum
  | num (q : ℚ) : JSNum
deriving DecidableEq, Repr

/-- JavaScript addition on `JSNum`. -/
def jsAdd : JSNum → JSNum → JSNum
  | .nan, _ => .nan
  | _, .nan => .nan
  | .inf, .neginf => .nan
  | .neginf, .inf => .nan
  | .inf, _ => .inf
  | _, .inf => .inf
  | .neginf, _ => .neginf
  | _, .neginf => .neginf
  | .num a, .num b => .num (a + b)

/-- JavaScript division on `JSNum` (division by zero gives an infinity,
`0/0` and anything involving NaN gives NaN). -/
def jsDiv : JSNum → JSNum → JSNum
  | .nan, _ => .nan
  | _, .nan => .nan
  | .inf, .inf => .nan
  | .inf, .neginf => .nan
  | .neginf, .inf => .nan
  | .neginf, .neginf => .nan
  | .inf, .num b => if b < 0 then .neginf else .inf
  | .neginf, .num b => if b < 0 then .inf else .neginf
  | .num _, .inf => .num 0
  | .num _, .neginf => .num 0
  | .num a, .num b =>
    if b = 0 then (if a = 0 then .nan else if 0 < a then .inf else .neginf)
    else .num (a / b)

/-- The JavaScript idiom `x || 0`: NaN (falsy) is replaced by `0`;
`0` itself is also falsy but is replaced by the equal value `0`. -/
def jsOrZero : JSNum → JSNum
  | .nan => .num 0
  | .num q => .num q
  | .inf => .inf
  | .neginf => .neginf

/-- Whitespace test used by `trim`. -/
def isWs (c : Char) : Bool :=
  c == ' ' || c == '\t' || c == '\n' || c == '\r'

/-- `String.prototype.trim`: drop whitespace from both ends. -/
def trimChars (cs : List Char) : List Char :=
  ((cs.dropWhile isWs).reverse.dropWhile isWs).reverse

/-- `String.prototype.split(sep)` for a one-character separator: always
returns one more part than there are separator occurrences. -/
def splitOnChar (sep : Char) : List Char → List (List Char)
  | [] => [[]]
  | c :: rest =>
    match splitOnChar sep rest with
    | [] => [[]]
    | p :: ps => if c = sep then [] :: p :: ps else (c :: p) :: ps

/-- Numeric value of a decimal digit character. -/
def digitVal (c : Char) : ℕ := c.toNat - 48

/-- Value of a string of decimal digits (most significant first). -/
def digitsToNat (cs : List Char) : ℕ :=
  cs.foldl (fun acc c => acc * 10 + digitVal c) 0

/-- Value of the digits after a decimal point. -/
def decFracVal (cs : List Char) : ℚ :=
  cs.foldr (fun c acc => ((digitVal c : ℚ) + acc) / 10) 0

/-- Split a leading sign character off a numeric literal. -/
def signSplit (cs : List Char) : Bool × List Char :=
  match cs with
  | [] => (false, [])
  | c :: rest =>
    if c = '-' then (true, rest)
    else if c = '+' then (false, rest)
    else (false, c :: rest)

/-- Value of an unsigned decimal literal (digits with an optional single
decimal point); `none` when the text is not such a literal. -/
def decimalVal (cs : List Char) : Option ℚ :=
  match splitOnChar '.' cs with
  | [w] => if w ≠ [] ∧ w.all Char.isDigit then some ((digitsToNat w : ℚ)) else none
  | [w, f] =>
    if (w ≠ [] ∨ f ≠ []) ∧ w.all Char.isDigit ∧ f.all Char.isDigit then
      some ((digitsToNat w : ℚ) + decFracVal f)
    else none
  | _ => none

/-- The `Number(...)` coercion, on the plain-decimal fragment of its
grammar that page-count tokens can use: trimmed empty text is `0`, an
optionally signed decimal literal has its value, anything else is NaN. -/
def jsNumber (cs : List Char) : JSNum :=
  let t := trimChars cs
  if t = [] then .num 0
  else
    let s := signSplit t
    match decimalVal s.2 with
    | some q => .num (if s.1 then -q else q)
    | none => .nan

/-- `parsePageCount` from `StripBoardTab.tsx` (the reports file has a
character-identical copy): split the trimmed text on spaces; a token
containing `/` contributes `Number(num) / Number(denom)` of its first
two slash-separated pieces, any other token contributes
`Number(token) || 0`; sum the contributions starting from `0`.  A null
or empty `pageCount` is `0`. -/
def parsePageCount (pageCount : List Char) : JSNum :=
  if pageCount = [] then .num 0
  else
    let parts := splitOnChar ' ' (trimChars pageCount)
    parts.foldl
      (fun total part =>
        if '/' ∈ part then
          match splitOnChar '/' part with
          | n :: d :: _ => jsAdd total (jsDiv (jsNumber n) (jsNumber d))
          | _ => jsAdd total .nan
        else jsAdd total (jsOrZero (jsNumber part)))
      (.num 0)

/-- Decimal digit character for a value below ten. -/
def digitChar (n : ℕ) : Char := Char.ofNat (n + 48)

/-- Decimal rendering of a natural number (`Number.prototype.toString`). -/
def natDecimal : ℕ → List Char
  | n =>
    if _h : n < 10 then [digitChar n]
    else natDecimal (n / 10) ++ [digitChar (n % 10)]
  termination_by n => n
  decreasing_by exact Nat.div_lt_self (by omega) (by omega)

/-- Decimal rendering of an integer. -/
def intDecimal (n : ℤ) : List Char :=
  if n < 0 then '-' :: natDecimal (-n).toNat else natDecimal n.toNat

/-- `Math.round`: round half toward positive infinity. -/
def jsRound (q : ℚ) : ℤ := Int.floor (q + 1 / 2)

/-- `formatPageCount` from `StripBoardTab.tsx` (the reports file has a
character-identical copy): split into whole part (`Math.floor`) and
fractional part, round the fraction to eighths, and render `"w"`,
`"e/8"`, or `"w e/8"`. -/
def formatPageCount (pages : ℚ) : List Char :=
  let whole : ℤ := Int.floor pages
  let fraction : ℚ := pages - whole
  let eighths : ℤ := jsRound (fraction * 8)
  if eighths = 0 then intDecimal whole
  else if whole = 0 then intDecimal eighths ++ ['/', '8']
  else intDecimal whole ++ ' ' :: (intDecimal eighths ++ ['/', '8'])

/-! ## Strip reorder route
`src/app/api/projects/[id]/schedule/reorder/route.ts`.  One schedule's
strips are modelled as a list of rows; authentication, project access
and the schedule lookup are out of scope.  Positions are JavaScript
numbers (the request body is JSON), hence `ℚ`.  The `position` column
is a Prisma `Int`: the route itself never checks integrality, and when
a non-integer value reaches the transaction the database client's
scalar validation throws (modelled in `reorderTxChecked`), which the
route's catch turns into the HTTP 500 response. -/

/-- A `StripSlot` row of the schedule under consideration. -/
structure StripSlot where
  id : String
  position : ℚ
deriving DecidableEq, Repr

/-- Position change applied by the transaction's `updateMany` to a
single position: moving later decrements positions in
`(oldP, newP]`, moving earlier increments positions in `[newP, oldP)`. -/
def qStep (oldP newP p : ℚ) : ℚ :=
  if oldP < newP then (if oldP < p ∧ p ≤ newP then p - 1 else p)
  else (if newP ≤ p ∧ p < oldP then p + 1 else p)

/-- The `updateMany` shift applied to one row. -/
def shiftStep (oldP newP : ℚ) (s : StripSlot) : StripSlot :=
  { s with position := qStep oldP newP s.position }

/-- The reorder transaction: shift the in-between rows, then set the
moved strip (matched by id) to its new position. -/
def reorderTx (strips : List StripSlot) (stripId : String) (oldP newP : ℚ) :
    List StripSlot :=
  (strips.map (shiftStep oldP newP)).map
    (fun s => if s.id = stripId then { s with position := newP } else s)

/-- The `$transaction` as the Prisma client executes it: `position` is
an `Int` column, and the client's scalar validation rejects a
non-integer value supplied for it in the `updateMany` filter bounds or
the `update` data, throwing before any row is written.  With integer
values the transaction is the pure shift-then-place `reorderTx`. -/
def reorderTxChecked (strips : List StripSlot) (stripId : String) (oldP newP : ℚ) :
    Option (List StripSlot) :=
  if oldP.den = 1 ∧ newP.den = 1 then some (reorderTx strips stripId oldP newP)
  else none

/-- Response classes of the reorder route: HTTP 400, 404, the trivial
"No change needed" success, the success that ran the transaction, and
the catch-all HTTP 500 produced when the transaction throws. -/
inductive ReorderOutcome where
  | badRequest
  | notFound
  | noChange
  | ok
  | internalError
deriving DecidableEq, Repr

/-- The JavaScript idiom `x || 1` applied to the nullable aggregate
maximum (`null` and `0` are falsy). -/
def jsOrOne : Option ℚ → ℚ
  | none => 1
  | some v => if v = 0 then 1 else v

/-- The POST handler of the reorder route, after access control: the
`stripId`/`newPosition` validations, strip lookup, no-op check,
max-position validation, and the transaction.  Returns the response
class together with the resulting strip rows (unchanged unless the
transaction ran). -/
def reorderPost (strips : List StripSlot) (stripId : String) (newPosition : ℚ) :
    ReorderOutcome × List StripSlot :=
  if stripId = "" then (.badRequest, strips)
  else if newPosition < 1 then (.badRequest, strips)
  else
    match strips.find? (fun s => s.id == stripId) with
    | none => (.notFound, strips)
    | some strip =>
      if strip.position = newPosition then (.noChange, strips)
      else if jsOrOne ((strips.map (fun s => s.position)).max?) < newPosition then
        (.badRequest, strips)
      else
        match reorderTxChecked strips stripId strip.position newPosition with
        | some strips2 => (.ok, strips2)
        | none => (.internalError, strips)

/-- Natural-number counterpart of `qStep` (used to reason about the
transaction on states whose positions are the integers `1..N`). -/
def natStep (a m b : ℕ) : ℕ :=
  if a < m then (if a < b ∧ b ≤ m then b - 1 else b)
  else (if m ≤ b ∧ b < a then b + 1 else b)

/-! ## Day-break routes
`src/app/api/projects/[id]/schedule/daybreaks/route.ts` (toggle) and
the renumber route.  `afterPosition` and `dayNumber` are integer
columns. -/

/-- A `DayBreak` row of the schedule under consideration. -/
structure DayBreak where
  id : String
  afterPosition : ℤ
  dayNumber : ℤ
deriving DecidableEq, Repr

/-- Response classes of the toggle route. -/
inductive ToggleOutcome where
  | badRequest
  | deleted (db : DayBreak)
  | created (db : DayBreak)
deriving DecidableEq, Repr

/-- The POST handler of the day-break toggle route, after access
control: validate `afterPosition ≥ 0`; if a break exists at that
position delete it (by id), else create one with
`dayNumber = (max dayNumber || 0) + 1` (`newId` stands for the
database-generated id of the created row). -/
def toggleDayBreak (dbs : List DayBreak) (afterPosition : ℤ) (newId : String) :
    ToggleOutcome × List DayBreak :=
  if afterPosition < 0 then (.badRequest, dbs)
  else
    match dbs.find? (fun db => db.afterPosition == afterPosition) with
    | some db => (.deleted db, dbs.filter (fun b => b.id != db.id))
    | none =>
      let nextDayNumber := ((dbs.map (fun db => db.dayNumber)).max?.getD 0) + 1
      let newDb : DayBreak :=
        { id := newId, afterPosition := afterPosition, dayNumber := nextDayNumber }
      (.created newDb, dbs ++ [newDb])

/-- Sequential day-number assignment of the renumber transaction
(`dayBreaks.map((db, index) => update dayNumber = index + 1)`), started
at `k`. -/
def assignNumbers (k : ℤ) : List DayBreak → List DayBreak
  | [] => []
  | db :: rest => { db with dayNumber := k } :: assignNumbers (k + 1) rest

/-- The renumber route: fetch all day breaks ordered by `afterPosition`
ascending (the column is unique per schedule, so the order is
well-defined; modelled by insertion sort) and assign
`dayNumber = index + 1` in that order. -/
def renumberDayBreaks (dbs : List DayBreak) : List DayBreak :=
  assignNumbers 1
    (List.insertionSort (fun a b => a.afterPosition ≤ b.afterPosition) dbs)

/-! ## Report layer: day segments, shoot dates, day out of days
From the reports file (`generateShootingSchedulePDF`, `generateDOODPDF`,
`DOODTab`); `StripBoardTab.tsx` repeats the same grouping walk. -/

/-- A strip as the report layer sees it: its position and the character
ids of the scene's cast. -/
structure RStrip where
  position : ℕ
  cast : List String
deriving DecidableEq, Repr

/-- The grouping walk shared by the report generators: push each strip
onto the current day, close the day whenever the strip's position is a
day-break `afterPosition` (`dayBreakMap.has(strip.position)`), and keep
a non-empty trailing day. -/
def groupGo (breakPositions : List ℕ) (cur : List RStrip) :
    List RStrip → List (List RStrip)
  | [] => if cur = [] then [] else [cur]
  | s :: rest =>
    let cur2 := cur ++ [s]
    if s.position ∈ breakPositions then cur2 :: groupGo breakPositions [] rest
    else groupGo breakPositions cur2 rest

/-- Day segments of a strip order with the given day-break positions. -/
def computeDaySegments (breakPositions : List ℕ) (strips : List RStrip) :
    List (List RStrip) :=
  groupGo breakPositions [] strips

/-- Whether a cast member appears in at least one scene of a segment
(`dayStrips.some((s) => s.breakdown.cast.some((c) => c.characterId === char.id))`). -/
def worksInSegment (characterId : String) (seg : List RStrip) : Bool :=
  seg.any (fun s => s.cast.any (fun c => c == characterId))

/-- The forward scan of the DOOD computation, carrying `hasStarted`. -/
def doodScan (characterId : String) (hasStarted : Bool) :
    List (List RStrip) → List String
  | [] => []
  | seg :: rest =>
    if worksInSegment characterId seg then
      (if hasStarted then "W" else "SW") :: doodScan characterId true rest
    else
      (if hasStarted then "H" else "") :: doodScan characterId hasStarted rest

/-- The `lastWorkDay` tracking of the DOOD scan (`-1` when the member
never works), carrying the index of the next segment. -/
def lastWorkAux (characterId : String) (acc : ℤ) (i : ℕ) :
    List (List RStrip) → ℤ
  | [] => acc
  | seg :: rest =>
    lastWorkAux characterId
      (if worksInSegment characterId seg then (i : ℤ) else acc) (i + 1) rest

/-- Index of the member's last working segment, `-1` if none. -/
def lastWorkDay (characterId : String) (days : List (List RStrip)) : ℤ :=
  lastWorkAux characterId (-1) 0 days

/-- The DOOD status row of one cast member: forward scan, promotion of
the last working segment to `WF`/`SWF`, and the clearing loop that
blanks every entry after the last working segment. -/
def doodStatuses (characterId : String) (days : List (List RStrip)) : List String :=
  let statuses := doodScan characterId false days
  let lw := lastWorkDay characterId days
  let promoted :=
    if 0 ≤ lw ∧ statuses.getD lw.toNat "" ≠ "SW" then statuses.set lw.toNat "WF"
    else if 0 ≤ lw then statuses.set lw.toNat "SWF"
    else statuses
  promoted.mapIdx (fun i s => if lw + 1 ≤ (i : ℤ) then "" else s)

/-- Working-day count of a status row
(`statuses.filter((s) => ["W","SW","WF","SWF"].includes(s)).length`). -/
def workingDays (statuses : List String) : ℕ :=
  (statuses.filter (fun s => ["W", "SW", "WF", "SWF"].contains s)).length

/-- Reference DOOD row, written from the claim's words: a working
segment is `SW` on the first appearance and `W` later; a non-working
segment is `H` after the first appearance and blank before it; the last
working segment (the largest working index) is promoted to `WF`, or to
`SWF` when it was the first appearance as well; every segment after the
last working one is blank. -/
def doodRef (characterId : String) (days : List (List RStrip)) : List String :=
  let n := days.length
  let works := fun i => worksInSegment characterId (days.getD i [])
  let lastWork := ((List.range n).filter works).max?
  (List.range n).map (fun i =>
    match lastWork with
    | none => ""
    | some L =>
      if L < i then ""
      else if i = L then (if (List.range i).any works then "WF" else "SWF")
      else if works i then (if (List.range i).any works then "W" else "SW")
      else if (List.range i).any works then "H" else "")

/-! ## Shoot dates
`pdfParseLocalDate` anchors the parsed `yyyy-mm-dd` at local noon, so
adding days via `setDate` is pure Gregorian calendar arithmetic (no DST
shift of at most an hour can move noon across midnight); the date value
is modelled as the calendar triple. -/

/-- A calendar date. -/
structure CalDate where
  year : ℕ
  month : ℕ
  day : ℕ
deriving DecidableEq, Repr

/-- Gregorian leap-year rule. -/
def isLeapYear (y : ℕ) : Bool :=
  (y % 4 == 0 && y % 100 != 0) || y % 400 == 0

/-- Days in a month of the Gregorian calendar. -/
def daysInMonth (y m : ℕ) : ℕ :=
  if m = 2 then (if isLeapYear y then 29 else 28)
  else if m = 4 ∨ m = 6 ∨ m = 9 ∨ m = 11 then 30
  else 31

/-- The next calendar day. -/
def nextCalDay (d : CalDate) : CalDate :=
  if d.day < daysInMonth d.year d.month then { d with day := d.day + 1 }
  else if d.month < 12 then { year := d.year, month := d.month + 1, day := 1 }
  else { year := d.year + 1, month := 1, day := 1 }

/-- `pdfAddDays`: advance a local-noon date by a number of calendar
days. -/
def addDays : CalDate → ℕ → CalDate
  | d, 0 => d
  | d, n + 1 => addDays (nextCalDay d) n

/-- One entry of the `days` array built by
`generateShootingSchedulePDF`: the running day number, the day's
strips, and its shoot date when a start date is set. -/
structure ShootDay where
  dayNumber : ℕ
  strips : List RStrip
  shootDate : Option CalDate
deriving DecidableEq, Repr

/-- The grouping walk of `generateShootingSchedulePDF`, which also
assigns `shootDate = startDate + (currentDay - 1)` to each closed day
(including the trailing one). -/
def buildGo (startDate : Option CalDate) (breakPositions : List ℕ)
    (currentDay : ℕ) (cur : List RStrip) : List RStrip → List ShootDay
  | [] =>
    if cur = [] then []
    else
      [{ dayNumber := currentDay, strips := cur,
         shootDate := startDate.map (fun d0 => addDays d0 (currentDay - 1)) }]
  | s :: rest =>
    let cur2 := cur ++ [s]
    if s.position ∈ breakPositions then
      { dayNumber := currentDay, strips := cur2,
        shootDate := startDate.map (fun d0 => addDays d0 (currentDay - 1)) } ::
        buildGo startDate breakPositions (currentDay + 1) [] rest
    else buildGo startDate breakPositions currentDay cur2 rest

/-- The `days` array of `generateShootingSchedulePDF`. -/
def buildShootingDays (startDate : Option CalDate) (breakPositions : List ℕ)
    (strips : List RStrip) : List ShootDay :=
  buildGo startDate breakPositions 1 [] strips

/-! ## Shared list lemmas -/

lemma find?_decomp {α : Type} (p : α → Bool) {l : List α} {x : α}
    (h : l.find? p = some x) :
    p x = true ∧ ∃ l₁ l₂, l = l₁ ++ x :: l₂ ∧ ∀ y ∈ l₁, p y = false := by
  induction l with
  | nil => simp at h
  | cons a rest ih =>
    cases hpa : p a with
    | true =>
      simp only [List.find?_cons, hpa, Option.some.injEq] at h
      subst h
      exact ⟨hpa, [], rest, rfl, by simp⟩
    | false =>
      simp only [List.find?_cons, hpa] at h
      obtain ⟨hx, l₁, l₂, rfl, hall⟩ := ih h
      refine ⟨hx, a :: l₁, l₂, rfl, ?_⟩
      intro y hy
      rcases List.mem_cons.mp hy with rfl | hy2
      · exact hpa
      · exact hall y hy2

lemma nodup_map_split {α β : Type} (f : α → β) {l₁ l₂ : List α} {x : α}
    (h : ((l₁ ++ x :: l₂).map f).Nodup) : ∀ y ∈ l₁ ++ l₂, f y ≠ f x := by
  rw [List.map_append, List.map_cons, List.nodup_append] at h
  obtain ⟨h1, h2, hdisj⟩ := h
  rw [List.nodup_cons] at h2
  intro y hy
  rcases List.mem_append.mp hy with hy1 | hy2
  · intro he
    exact hdisj (List.mem_map_of_mem f hy1) (by rw [he]; exact List.mem_cons_self _ _)
  · intro he
    exact h2.1 (he ▸ List.mem_map_of_mem f hy2)

lemma find?_append_none {α : Type} (p : α → Bool) {l₁ : List α} (l₂ : List α)
    (h : l₁.find? p = none) : (l₁ ++ l₂).find? p = l₂.find? p := by
  induction l₁ with
  | nil => rfl
  | cons a rest ih =>
    rw [List.find?_eq_none] at h
    have ha : p a = false := by simpa using h a (by simp)
    rw [List.cons_append, List.find?_cons, ha]
    exact ih (List.find?_eq_none.mpr fun x hx => h x (by simp [hx]))

/-! ## Day-break renumbering (claim C7) -/

lemma assignNumbers_map_afterPosition (k : ℤ) (l : List DayBreak) :
    (assignNumbers k l).map (fun db => db.afterPosition) =
      l.map (fun db => db.afterPosition) := by
  induction l generalizing k with
  | nil => rfl
  | cons db rest ih => simp [assignNumbers, ih]

lemma assignNumbers_map_dayNumber (k : ℤ) (l : List DayBreak) :
    (assignNumbers k l).map (fun db => db.dayNumber) =
      (List.range l.length).map (fun i : ℕ => k + (i : ℤ)) := by
  induction l generalizing k with
  | nil => rfl
  | cons db rest ih =>
    rw [show assignNumbers k (db :: rest) =
      { db with dayNumber := k } :: assignNumbers (k + 1) rest from rfl]
    rw [List.map_cons, ih, List.length_cons, List.range_succ_eq_map, List.map_cons,
      List.map_map]
    refine List.cons_eq_cons.mpr ⟨by push_cast; ring, (List.map_congr_left ?_).symm⟩
    intro a _
    simp only [Function.comp_apply]
    push_cast
    ring

lemma assignNumbers_idem (k : ℤ) (l : List DayBreak) :
    assignNumbers k (assignNumbers k l) = assignNumbers k l := by
  induction l generalizing k with
  | nil => rfl
  | cons db rest ih => simp [assignNumbers, ih]

lemma assignNumbers_pairwise (k : ℤ) (l : List DayBreak)
    (h : List.Pairwise (fun a b : DayBreak => a.afterPosition ≤ b.afterPosition) l) :
    List.Pairwise (fun a b : DayBreak => a.afterPosition ≤ b.afterPosition)
      (assignNumbers k l) := by
  have h2 : List.Pairwise (fun a b : ℤ => a ≤ b)
      (l.map (fun db => db.afterPosition)) := List.pairwise_map.mpr h
  rw [← assignNumbers_map_afterPosition k l] at h2
  exact List.pairwise_map.mp h2

/-- C7: `renumberDayBreaks` sorts the day breaks by `afterPosition`
ascending and assigns `dayNumber = rank` (1-based) in that order, so
the dayNumbers in afterPosition order are exactly `1, 2, …, B`, and a
second consecutive call produces identical assignments. -/
theorem renumberDayBreaks_correct (dbs : List DayBreak)
    (hnodup : (dbs.map (fun db => db.afterPosition)).Nodup) :
    List.Pairwise (fun a b : ℤ => a ≤ b)
        ((renumberDayBreaks dbs).map (fun db => db.afterPosition)) ∧
    (renumberDayBreaks dbs).map (fun db => db.dayNumber) =
      (List.range dbs.length).map (fun i : ℕ => (i : ℤ) + 1) ∧
    renumberDayBreaks (renumberDayBreaks dbs) = renumberDayBreaks dbs := by
  haveI : IsTotal DayBreak (fun a b : DayBreak => a.afterPosition ≤ b.afterPosition) :=
    ⟨fun a b => le_total _ _⟩
  haveI : IsTrans DayBreak (fun a b : DayBreak => a.afterPosition ≤ b.afterPosition) :=
    ⟨fun a b c h1 h2 => le_trans h1 h2⟩
  have hsorted : List.Sorted (fun a b : DayBreak => a.afterPosition ≤ b.afterPosition)
      (List.insertionSort (fun a b : DayBreak => a.afterPosition ≤ b.afterPosition) dbs) :=
    List.sorted_insertionSort _ dbs
  have hsorted2 : List.Sorted (fun a b : DayBreak => a.afterPosition ≤ b.afterPosition)
      (renumberDayBreaks dbs) := assignNumbers_pairwise 1 _ hsorted
  refine ⟨List.pairwise_map.mpr hsorted2, ?_, ?_⟩
  · unfold renumberDayBreaks
    rw [assignNumbers_map_dayNumber]
    rw [(List.perm_insertionSort
      (fun a b : DayBreak => a.afterPosition ≤ b.afterPosition) dbs).length_eq]
    exact List.map_congr_left fun a _ => by ring
  · conv in renumberDayBreaks (renumberDayBreaks dbs) => rw [renumberDayBreaks]
    rw [List.Sorted.insertionSort_eq hsorted2]
    unfold renumberDayBreaks
    exact assignNumbers_idem 1 _

/-- Witness for C7 at a concrete two-break schedule. -/
theorem renumberDayBreaks_correct_witness :
    List.Pairwise (fun a b : ℤ => a ≤ b)
        ((renumberDayBreaks [⟨"d2", 4, 9⟩, ⟨"d1", 2, 5⟩]).map
          (fun db => db.afterPosition)) ∧
    (renumberDayBreaks [⟨"d2", 4, 9⟩, ⟨"d1", 2, 5⟩]).map (fun db => db.dayNumber) =
      (List.range ([⟨"d2", 4, 9⟩, ⟨"d1", 2, 5⟩] : List DayBreak).length).map
        (fun i : ℕ => (i : ℤ) + 1) ∧
    renumberDayBreaks (renumberDayBreaks [⟨"d2", 4, 9⟩, ⟨"d1", 2, 5⟩]) =
      renumberDayBreaks [⟨"d2", 4, 9⟩, ⟨"d1", 2, 5⟩] :=
  renumberDayBreaks_correct [⟨"d2", 4, 9⟩, ⟨"d1", 2, 5⟩] (by decide)

/-! ## Day-break toggle (claim C8) -/

/-- C8: toggling a day break twice at the same `afterPosition` restores
the set of afterPosition values (deleting what the first call created,
or recreating what it deleted; the recreated break's dayNumber is not
constrained).  `id1`, `id2` stand for the generated ids of rows the two
calls may create; `id1` is fresh as database ids are. -/
theorem toggle_toggle_restores (dbs : List DayBreak) (p : ℤ) (id1 id2 : String)
    (hpos : (dbs.map (fun db => db.afterPosition)).Nodup)
    (hids : (dbs.map (fun db => db.id)).Nodup)
    (hfresh : id1 ∉ dbs.map (fun db => db.id)) :
    ((toggleDayBreak (toggleDayBreak dbs p id1).2 p id2).2.map
        (fun db => db.afterPosition)).Perm
      (dbs.map (fun db => db.afterPosition)) := by
  by_cases hneg : p < 0
  · simp [toggleDayBreak, hneg]
  rcases hfd : dbs.find? (fun db => db.afterPosition == p) with _ | db
  · -- no break at p: the first call creates one, the second deletes it
    have h1 : (toggleDayBreak dbs p id1).2 =
        dbs ++ [⟨id1, p, ((dbs.map (fun db => db.dayNumber)).max?.getD 0) + 1⟩] := by
      simp [toggleDayBreak, hneg, hfd]
    have h2 : (dbs ++ [(⟨id1, p, ((dbs.map (fun db => db.dayNumber)).max?.getD 0) + 1⟩ :
        DayBreak)]).find? (fun db => db.afterPosition == p) =
        some ⟨id1, p, ((dbs.map (fun db => db.dayNumber)).max?.getD 0) + 1⟩ := by
      rw [find?_append_none _ _ hfd]
      simp [List.find?_cons]
    have hfilter : (dbs ++ [(⟨id1, p, ((dbs.map (fun db => db.dayNumber)).max?.getD 0) + 1⟩ :
        DayBreak)]).filter (fun b => b.id != id1) = dbs := by
      rw [List.filter_append]
      have hd : dbs.filter (fun b => b.id != id1) = dbs := by
        rw [List.filter_eq_self]
        intro b hb
        have : b.id ≠ id1 := fun he => hfresh (he ▸ List.mem_map_of_mem _ hb)
        simpa using this
      simp [hd]
    rw [h1]
    simp only [toggleDayBreak, if_neg hneg, h2]
    rw [hfilter]
  · -- a break at p exists: the first call deletes it, the second recreates p
    obtain ⟨hpx, l₁, l₂, hsplit, -⟩ := find?_decomp _ hfd
    have hdbp : db.afterPosition = p := by simpa using hpx
    subst hsplit
    have hneid : ∀ y ∈ l₁ ++ l₂, y.id ≠ db.id :=
      nodup_map_split (fun db : DayBreak => db.id) hids
    have h1 : (toggleDayBreak (l₁ ++ db :: l₂) p id1).2 = l₁ ++ l₂ := by
      simp only [toggleDayBreak, if_neg hneg, hfd]
      rw [List.filter_append, List.filter_cons]
      simp only [bne_self_eq_false, Bool.false_eq_true, if_false]
      have hf1 : l₁.filter (fun b => b.id != db.id) = l₁ := by
        rw [List.filter_eq_self]
        intro b hb
        simpa using hneid b (List.mem_append_left _ hb)
      have hf2 : l₂.filter (fun b => b.id != db.id) = l₂ := by
        rw [List.filter_eq_self]
        intro b hb
        simpa using hneid b (List.mem_append_right _ hb)
      rw [hf1, hf2]
    have hnoP : (l₁ ++ l₂).find? (fun db => db.afterPosition == p) = none := by
      rw [List.find?_eq_none]
      intro y hy
      have := nodup_map_split (fun db : DayBreak => db.afterPosition) hpos y hy
      simp only at this
      rw [hdbp] at this
      simpa using this
    rw [h1]
    simp only [toggleDayBreak, if_neg hneg, hnoP]
    simp only [List.map_append, List.map_cons, List.map_nil]
    rw [hdbp]
    refine ((List.perm_append_singleton _ _).trans ?_)
    exact List.perm_middle.symm

/-- Witness for C8 at a concrete one-break schedule. -/
theorem toggle_toggle_restores_witness :
    ((toggleDayBreak (toggleDayBreak [⟨"d1", 2, 1⟩] 2 "n1").2 2 "n2").2.map
        (fun db => db.afterPosition)).Perm
      (([⟨"d1", 2, 1⟩] : List DayBreak).map (fun db => db.afterPosition)) :=
  toggle_toggle_restores [⟨"d1", 2, 1⟩] 2 "n1" "n2" (by decide) (by decide) (by decide)

/-! ## Day segments (claim C2) -/

lemma groupGo_length (bp : List ℕ) :
    ∀ (l : List RStrip) (h : l ≠ []) (cur : List RStrip),
      (groupGo bp cur l).length =
        l.countP (fun s => decide (s.position ∈ bp)) +
          (if (l.getLast h).position ∈ bp then 0 else 1) := by
  intro l
  induction l with
  | nil => intro h; exact absurd rfl h
  | cons s rest ih =>
    intro h cur
    cases rest with
    | nil =>
      by_cases hs : s.position ∈ bp <;>
        simp [groupGo, hs, List.countP_cons]
    | cons s2 rest2 =>
      have hne : s2 :: rest2 ≠ [] := by simp
      rw [List.getLast_cons hne]
      by_cases hs : s.position ∈ bp
      · rw [show groupGo bp cur (s :: s2 :: rest2) =
          (cur ++ [s]) :: groupGo bp [] (s2 :: rest2) from by simp [groupGo, hs]]
        rw [List.length_cons, ih hne []]
        conv_rhs => rw [List.countP_cons]
        have hif : (if (decide (s.position ∈ bp) = true) then (1 : ℕ) else 0) = 1 := by
          simp [hs]
        rw [hif]
        omega
      · rw [show groupGo bp cur (s :: s2 :: rest2) =
          groupGo bp (cur ++ [s]) (s2 :: rest2) from by simp [groupGo, hs]]
        rw [ih hne (cur ++ [s])]
        conv_rhs => rw [List.countP_cons]
        have hif : (if (decide (s.position ∈ bp) = true) then (1 : ℕ) else 0) = 0 := by
          simp [hs]
        rw [hif]
        omega

lemma countP_mem_of_nodup {pos bp : List ℕ} (hpos : pos.Nodup) (hbp : bp.Nodup)
    (hsub : ∀ b ∈ bp, b ∈ pos) :
    pos.countP (fun x => decide (x ∈ bp)) = bp.length := by
  rw [List.countP_eq_length_filter]
  have hperm : (pos.filter (fun x => decide (x ∈ bp))).Perm bp := by
    rw [List.perm_ext_iff_of_nodup (hpos.filter _) hbp]
    intro a
    simp only [List.mem_filter, decide_eq_true_eq]
    exact ⟨And.right, fun ha => ⟨hsub a ha, ha⟩⟩
  exact hperm.length_eq

lemma strips_countP (strips : List RStrip) (bp : List ℕ)
    (hpos : (strips.map (fun s => s.position)).Nodup) (hbp : bp.Nodup)
    (hsub : ∀ b ∈ bp, b ∈ strips.map (fun s => s.position)) :
    strips.countP (fun s => decide (s.position ∈ bp)) = bp.length := by
  have h1 : strips.countP (fun s => decide (s.position ∈ bp)) =
      (strips.map (fun s => s.position)).countP (fun x => decide (x ∈ bp)) := by
    rw [List.countP_map]
    rfl
  rw [h1]
  exact countP_mem_of_nodup hpos hbp hsub

/-- C2 (amended): when the day-break positions are distinct and each is
the position of some strip, the walk yields `B + 1` segments when the
last strip's position is not a break position and `B` segments when it
is; the 5-strip scenario with breaks after 2 and 4 yields segments of
sizes `[2, 2, 1]`. -/
theorem computeDaySegments_count (bp : List ℕ) (strips : List RStrip)
    (h : strips ≠ [])
    (hpos : (strips.map (fun s => s.position)).Nodup) (hbp : bp.Nodup)
    (hsub : ∀ b ∈ bp, b ∈ strips.map (fun s => s.position)) :
    (computeDaySegments bp strips).length =
      bp.length + (if (strips.getLast h).position ∈ bp then 0 else 1) ∧
    (computeDaySegments [2, 4]
        [⟨1, []⟩, ⟨2, []⟩, ⟨3, []⟩, ⟨4, []⟩, ⟨5, []⟩]).map List.length =
      [2, 2, 1] := by
  constructor
  · rw [computeDaySegments, groupGo_length bp strips h [],
      strips_countP strips bp hpos hbp hsub]
  · decide

/-- Witness for (amended) C2 at the 5-strip scenario itself. -/
theorem computeDaySegments_count_witness :
    (computeDaySegments [2, 4]
        [⟨1, []⟩, ⟨2, []⟩, ⟨3, []⟩, ⟨4, []⟩, ⟨5, []⟩]).length =
      ([2, 4] : List ℕ).length +
        (if (([⟨1, []⟩, ⟨2, []⟩, ⟨3, []⟩, ⟨4, []⟩, ⟨5, []⟩] :
            List RStrip).getLast (by decide)).position ∈ ([2, 4] : List ℕ)
          then 0 else 1) :=
  (computeDaySegments_count [2, 4] [⟨1, []⟩, ⟨2, []⟩, ⟨3, []⟩, ⟨4, []⟩, ⟨5, []⟩]
    (by decide) (by decide) (by decide) (by decide)).1

/-- C2 as stated is false: with one strip at position 1 and one day
break at afterPosition 5 (which is not any strip's position), the walk
yields a single segment although the claim, whose last-strip position 1
is not a break position, demands `B + 1 = 2`. -/
theorem computeDaySegments_counterexample :
    (⟨1, []⟩ : RStrip).position ∉ ([5] : List ℕ) ∧
    (computeDaySegments [5] [⟨1, []⟩]).length ≠ ([5] : List ℕ).length + 1 := by
  decide

/-! ## Shoot dates (claim C4) -/

lemma buildGo_getD (sd : Option CalDate) (bp : List ℕ) :
    ∀ (l cur : List RStrip) (c i : ℕ),
      i < (buildGo sd bp c cur l).length →
      ((buildGo sd bp c cur l).getD i ⟨0, [], none⟩).dayNumber = c + i ∧
      ((buildGo sd bp c cur l).getD i ⟨0, [], none⟩).shootDate =
        sd.map (fun d0 => addDays d0 (c + i - 1)) := by
  intro l
  induction l with
  | nil =>
    intro cur c i h
    by_cases hcur : cur = []
    · exfalso
      simp [buildGo, hcur] at h
    · have hi : i = 0 := by
        simp only [buildGo, if_neg hcur, List.length_singleton] at h
        omega
      subst hi
      constructor <;> simp [buildGo, hcur]
  | cons s rest ih =>
    intro cur c i h
    by_cases hs : s.position ∈ bp
    · cases i with
      | zero => constructor <;> simp [buildGo, hs]
      | succ j =>
        have h2 : j < (buildGo sd bp (c + 1) [] rest).length := by
          simp only [buildGo, if_pos hs, List.length_cons] at h
          omega
        have hstep := ih [] (c + 1) j h2
        rw [show (buildGo sd bp c cur (s :: rest)).getD (j + 1) ⟨0, [], none⟩ =
          (buildGo sd bp (c + 1) [] rest).getD j ⟨0, [], none⟩ from by
            simp [buildGo, hs]]
        refine ⟨by rw [hstep.1]; omega, ?_⟩
        rw [hstep.2]
        rw [show c + 1 + j - 1 = c + (j + 1) - 1 from by omega]
    · have h2 : i < (buildGo sd bp c (cur ++ [s]) rest).length := by
        simpa [buildGo, hs] using h
      have hstep := ih (cur ++ [s]) c i h2
      rw [show (buildGo sd bp c cur (s :: rest)).getD i ⟨0, [], none⟩ =
        (buildGo sd bp c (cur ++ [s]) rest).getD i ⟨0, [], none⟩ from by
          simp [buildGo, hs]]
      exact hstep

/-- C4: with a start date set, the day at 0-based index `i` of the
generated schedule is dated `startDate + i` calendar days (day 1 falls
on the start date); with no start date no day gets a date; with start
date 2026-02-03 and breaks after positions 2 and 4 the three days fall
on 2026-02-03, 2026-02-04, 2026-02-05. -/
theorem shootDates_correct :
    (∀ (d0 : CalDate) (bp : List ℕ) (strips : List RStrip)
        (i : Fin (buildShootingDays (some d0) bp strips).length),
        ((buildShootingDays (some d0) bp strips).get i).shootDate =
          some (addDays d0 i.val)) ∧
    (∀ (bp : List ℕ) (strips : List RStrip) (g : ShootDay),
        g ∈ buildShootingDays none bp strips → g.shootDate = none) ∧
    (buildShootingDays (some ⟨2026, 2, 3⟩) [2, 4]
        [⟨1, []⟩, ⟨2, []⟩, ⟨3, []⟩, ⟨4, []⟩, ⟨5, []⟩]).map (fun g => g.shootDate) =
      [some ⟨2026, 2, 3⟩, some ⟨2026, 2, 4⟩, some ⟨2026, 2, 5⟩] := by
  refine ⟨?_, ?_, by decide⟩
  · intro d0 bp strips i
    have hi : i.val < (buildGo (some d0) bp 1 [] strips).length := i.isLt
    have hlem := buildGo_getD (some d0) bp strips [] 1 i.val hi
    rw [List.get_eq_getElem]
    unfold buildShootingDays
    rw [← List.getD_eq_getElem (buildGo (some d0) bp 1 [] strips) ⟨0, [], none⟩ hi]
    rw [hlem.2]
    rw [show 1 + i.val - 1 = i.val from by omega]
    rfl
  · intro bp strips g hg
    obtain ⟨i, hi, rfl⟩ := List.mem_iff_getElem.mp hg
    have hi2 : i < (buildGo none bp 1 [] strips).length := hi
    have hlem := buildGo_getD none bp strips [] 1 i hi2
    unfold buildShootingDays
    rw [← List.getD_eq_getElem (buildGo none bp 1 [] strips) ⟨0, [], none⟩ hi2]
    rw [hlem.2]
    rfl

/-- Witness for C4: instantiating the no-start-date clause at a
one-strip schedule. -/
theorem shootDates_correct_witness :
    (⟨1, [(⟨1, []⟩ : RStrip)], none⟩ : ShootDay).shootDate = none :=
  shootDates_correct.2.1 [] [⟨1, []⟩] ⟨1, [⟨1, []⟩], none⟩ (by decide)

/-! ## Day out of days (claim C3) -/

lemma doodScan_length (c : String) :
    ∀ (l : List (List RStrip)) (b : Bool), (doodScan c b l).length = l.length := by
  intro l
  induction l with
  | nil => intro b; rfl
  | cons seg rest ih =>
    intro b
    by_cases hw : worksInSegment c seg <;> simp [doodScan, hw, ih]

lemma doodScan_getD (c : String) :
    ∀ (l : List (List RStrip)) (b : Bool) (i : ℕ), i < l.length →
      (doodScan c b l).getD i "" =
        (if worksInSegment c (l.getD i []) then
          (if b || (l.take i).any (worksInSegment c) then "W" else "SW")
        else
          (if b || (l.take i).any (worksInSegment c) then "H" else "")) := by
  intro l
  induction l with
  | nil => intro b i h; simp at h
  | cons seg rest ih =>
    intro b i h
    cases i with
    | zero =>
      by_cases hw : worksInSegment c seg <;> simp [doodScan, hw]
    | succ j =>
      have hj : j < rest.length := by simpa using h
      by_cases hw : worksInSegment c seg
      · rw [show doodScan c b (seg :: rest) =
          (if b then "W" else "SW") :: doodScan c true rest from by simp [doodScan, hw]]
        rw [List.getD_cons_succ, ih true j hj]
        simp [List.take_succ_cons, hw]
      · rw [show doodScan c b (seg :: rest) =
          (if b then "H" else "") :: doodScan c b rest from by simp [doodScan, hw]]
        rw [List.getD_cons_succ, ih b j hj]
        simp [List.take_succ_cons, hw]

lemma lastWorkAux_cases (c : String) :
    ∀ (l : List (List RStrip)) (acc : ℤ) (i : ℕ),
      ((∀ seg ∈ l, worksInSegment c seg = false) ∧ lastWorkAux c acc i l = acc) ∨
      (∃ j : ℕ, j < l.length ∧ worksInSegment c (l.getD j []) = true ∧
        (∀ k, j < k → k < l.length → worksInSegment c (l.getD k []) = false) ∧
        lastWorkAux c acc i l = (i : ℤ) + j) := by
  intro l
  induction l with
  | nil => intro acc i; left; exact ⟨by simp, rfl⟩
  | cons seg rest ih =>
    intro acc i
    rcases ih (if worksInSegment c seg then (i : ℤ) else acc) (i + 1) with
      ⟨hall, heq⟩ | ⟨j, hj, hw, hmax, heq⟩
    · by_cases hws : worksInSegment c seg
      · right
        refine ⟨0, by simp, by simpa using hws, ?_, ?_⟩
        · intro k h0 hk
          cases k with
          | zero => omega
          | succ k2 =>
            have hk1 : k2 < rest.length := by simpa using hk
            rw [List.getD_cons_succ]
            have hmem : rest.getD k2 [] ∈ rest := by
              rw [List.getD_eq_getElem _ _ hk1]
              exact List.getElem_mem hk1
            exact hall _ hmem
        · rw [show lastWorkAux c acc i (seg :: rest) =
            lastWorkAux c (if worksInSegment c seg then (i : ℤ) else acc) (i + 1) rest
            from rfl, heq]
          simp [hws]
      · left
        constructor
        · intro sg hsg
          rcases List.mem_cons.mp hsg with rfl | h2
          · simpa using hws
          · exact hall _ h2
        · rw [show lastWorkAux c acc i (seg :: rest) =
            lastWorkAux c (if worksInSegment c seg then (i : ℤ) else acc) (i + 1) rest
            from rfl, heq]
          simp [hws]
    · right
      refine ⟨j + 1, by simpa using hj, by simpa using hw, ?_, ?_⟩
      · intro k hk1 hk2
        cases k with
        | zero => omega
        | succ k2 =>
          have hlt : j < k2 := by omega
          have hk2b : k2 < rest.length := by simpa using hk2
          simpa using hmax k2 hlt hk2b
      · rw [show lastWorkAux c acc i (seg :: rest) =
          lastWorkAux c (if worksInSegment c seg then (i : ℤ) else acc) (i + 1) rest
          from rfl, heq]
        push_cast
        ring

lemma range_filter_max (works : ℕ → Bool) (n j : ℕ) (hj : j < n)
    (hw : works j = true) (hmax : ∀ k, j < k → k < n → works k = false) :
    ((List.range n).filter works).max? = some j := by
  refine (List.max?_eq_some_iff (fun a => le_refl a) (fun a b => max_choice a b)
    (fun a b c => max_le_iff)).mpr ⟨?_, ?_⟩
  · rw [List.mem_filter, List.mem_range]
    exact ⟨hj, hw⟩
  · intro b hb
    rw [List.mem_filter, List.mem_range] at hb
    by_contra hgt
    have : works b = false := hmax b (by omega) hb.1
    rw [this] at hb
    exact absurd hb.2 (by simp)

lemma mapIdx_getD {α β : Type} (f : ℕ → α → β) :
    ∀ (l : List α) (i : ℕ), i < l.length → ∀ (d : β) (d2 : α),
      (l.mapIdx f).getD i d = f i (l.getD i d2) := by
  intro l
  induction l generalizing f with
  | nil => intro i h; simp at h
  | cons a rest ih =>
    intro i h d d2
    cases i with
    | zero => simp [List.mapIdx_cons]
    | succ j =>
      rw [List.mapIdx_cons, List.getD_cons_succ, List.getD_cons_succ]
      exact ih _ j (by simpa using h) d d2

lemma any_take_range (c : String) :
    ∀ (l : List (List RStrip)) (i : ℕ), i ≤ l.length →
      (l.take i).any (worksInSegment c) =
        (List.range i).any (fun k => worksInSegment c (l.getD k [])) := by
  intro l
  induction l with
  | nil =>
    intro i h
    have : i = 0 := by simpa using h
    subst this
    simp
  | cons seg rest ih =>
    intro i h
    cases i with
    | zero => simp
    | succ k =>
      rw [List.take_succ_cons, List.any_cons, List.range_succ_eq_map, List.any_cons,
        List.any_map, ih k (by simpa using h)]
      simp only [List.getD_cons_zero, Function.comp_def, List.getD_cons_succ]

lemma doodStatuses_length (c : String) (days : List (List RStrip)) :
    (doodStatuses c days).length = days.length := by
  simp only [doodStatuses]
  split_ifs <;> simp [List.length_mapIdx, List.length_set, doodScan_length]

lemma doodStatuses_getD_of_neg (c : String) (days : List (List RStrip))
    (h : lastWorkDay c days = -1) (i : ℕ) (hi : i < days.length) :
    (doodStatuses c days).getD i "" = "" := by
  simp only [doodStatuses, h]
  rw [if_neg (fun hc => absurd hc.1 (by norm_num)), if_neg (by norm_num)]
  rw [mapIdx_getD _ _ i (by rw [doodScan_length]; exact hi) "" ""]
  rw [if_pos (by omega : (-1 : ℤ) + 1 ≤ (i : ℤ))]

lemma doodStatuses_getD_of_max (c : String) (days : List (List RStrip)) (j : ℕ)
    (hlw : lastWorkDay c days = (j : ℤ)) (hj : j < days.length)
    (hw : worksInSegment c (days.getD j []) = true)
    (i : ℕ) (hi : i < days.length) :
    (doodStatuses c days).getD i "" =
      (if j < i then ""
       else if i = j then
         (if (days.take j).any (worksInSegment c) then "WF" else "SWF")
       else (doodScan c false days).getD i "") := by
  have hsj : (doodScan c false days).getD j "" =
      (if (days.take j).any (worksInSegment c) then "W" else "SW") := by
    rw [doodScan_getD c days false j hj, if_pos hw]
    simp
  have hpromoted :
      (if 0 ≤ ((j : ℤ)) ∧ (doodScan c false days).getD ((j : ℤ)).toNat "" ≠ "SW"
       then (doodScan c false days).set ((j : ℤ)).toNat "WF"
       else if 0 ≤ ((j : ℤ)) then (doodScan c false days).set ((j : ℤ)).toNat "SWF"
       else doodScan c false days) =
      (doodScan c false days).set j
        (if (days.take j).any (worksInSegment c) then "WF" else "SWF") := by
    simp only [Int.toNat_natCast]
    by_cases hst : (days.take j).any (worksInSegment c)
    · rw [if_pos ⟨Int.natCast_nonneg j, by rw [hsj, if_pos hst]; decide⟩, if_pos hst]
    · rw [if_neg (fun hc => hc.2 (by rw [hsj, if_neg hst])),
        if_pos (Int.natCast_nonneg j), if_neg hst]
  simp only [doodStatuses, hlw]
  rw [hpromoted]
  rw [mapIdx_getD _ _ i (by rw [List.length_set, doodScan_length]; exact hi) "" ""]
  have hsetlen : i < ((doodScan c false days).set j
      (if (days.take j).any (worksInSegment c) then "WF" else "SWF")).length := by
    rw [List.length_set, doodScan_length]
    exact hi
  rw [List.getD_eq_getElem _ _ hsetlen, List.getElem_set]
  by_cases hji : j < i
  · rw [if_pos (by omega : ((j : ℤ) + 1 ≤ (i : ℤ))), if_pos hji]
  · rw [if_neg (by omega : ¬ ((j : ℤ) + 1 ≤ (i : ℤ))), if_neg hji]
    by_cases hij : i = j
    · rw [if_pos (hij.symm), if_pos hij]
    · rw [if_neg (fun hc => hij hc.symm), if_neg hij]
      rw [← List.getD_eq_getElem _ "" (by rw [doodScan_length]; exact hi)]

lemma doodRef_getD_none (c : String) (days : List (List RStrip)) (i : ℕ)
    (hi : i < days.length)
    (hmx : ((List.range days.length).filter
        (fun k => worksInSegment c (days.getD k []))).max? = none) :
    (doodRef c days).getD i "" = "" := by
  have hlen : i < (doodRef c days).length := by
    simp only [doodRef]
    simpa using hi
  rw [List.getD_eq_getElem _ "" hlen]
  simp only [doodRef]
  rw [List.getElem_map, List.getElem_range, hmx]

lemma doodRef_getD_some (c : String) (days : List (List RStrip)) (i L : ℕ)
    (hi : i < days.length)
    (hmx : ((List.range days.length).filter
        (fun k => worksInSegment c (days.getD k []))).max? = some L) :
    (doodRef c days).getD i "" =
      (if L < i then ""
       else if i = L then
         (if (List.range i).any (fun k => worksInSegment c (days.getD k [])) then "WF"
          else "SWF")
       else if worksInSegment c (days.getD i []) then
         (if (List.range i).any (fun k => worksInSegment c (days.getD k [])) then "W"
          else "SW")
       else if (List.range i).any (fun k => worksInSegment c (days.getD k [])) then "H"
       else "") := by
  have hlen : i < (doodRef c days).length := by
    simp only [doodRef]
    simpa using hi
  rw [List.getD_eq_getElem _ "" hlen]
  simp only [doodRef]
  rw [List.getElem_map, List.getElem_range, hmx]

/-- C3: the DOOD status row computed by the code equals the reference
algorithm (blank before the first appearance, `SW` on it, `W`/`H`
within the engagement, the last working segment promoted to `WF`, or
`SWF` when it is also the first, blanks after it), and the two
scenarios: a member working only segment 2 of 3 gets `["", "SWF", ""]`
with 1 working day; a member working segments 1 and 3 of 3 gets
`["SW", "H", "WF"]` with 2 working days. -/
theorem dood_matches_reference :
    (∀ (characterId : String) (days : List (List RStrip)),
        doodStatuses characterId days = doodRef characterId days) ∧
    (doodStatuses "X" [[⟨1, []⟩], [⟨2, ["X"]⟩], [⟨3, []⟩]] = ["", "SWF", ""] ∧
      workingDays (doodStatuses "X" [[⟨1, []⟩], [⟨2, ["X"]⟩], [⟨3, []⟩]]) = 1) ∧
    (doodStatuses "Y" [[⟨1, ["Y"]⟩], [⟨2, []⟩], [⟨3, ["Y"]⟩]] = ["SW", "H", "WF"] ∧
      workingDays (doodStatuses "Y" [[⟨1, ["Y"]⟩], [⟨2, []⟩], [⟨3, ["Y"]⟩]]) = 2) := by
  refine ⟨?_, by decide, by decide⟩
  intro c days
  have hlen2 : (doodRef c days).length = days.length := by
    unfold doodRef
    simp
  apply List.ext_getElem (by rw [doodStatuses_length, hlen2])
  intro i h1 h2
  have hi : i < days.length := by rw [doodStatuses_length] at h1; exact h1
  rw [← List.getD_eq_getElem _ "" h1, ← List.getD_eq_getElem _ "" h2]
  have hrange : i < (List.range days.length).length := by simpa using hi
  rcases lastWorkAux_cases c days (-1) 0 with ⟨hall, heq⟩ | ⟨j, hj, hw, hmax, heq⟩
  · have hfilter : ((List.range days.length).filter
        (fun k => worksInSegment c (days.getD k []))).max? = none := by
      rw [List.filter_eq_nil_iff.mpr, List.max?_nil]
      intro a ha
      have haml : a < days.length := List.mem_range.mp ha
      have hmem : days.getD a [] ∈ days := by
        rw [List.getD_eq_getElem _ _ haml]
        exact List.getElem_mem haml
      simp only [Bool.not_eq_true]
      exact hall _ hmem
    rw [doodStatuses_getD_of_neg c days heq i hi, doodRef_getD_none c days i hi hfilter]
  · have hlwj : lastWorkDay c days = (j : ℤ) := by
      rw [show lastWorkDay c days = lastWorkAux c (-1) 0 days from rfl, heq]
      push_cast
      ring
    have hmaxsome : ((List.range days.length).filter
        (fun k => worksInSegment c (days.getD k []))).max? = some j :=
      range_filter_max _ days.length j hj hw hmax
    rw [doodStatuses_getD_of_max c days j hlwj hj hw i hi,
      doodRef_getD_some c days i j hi hmaxsome]
    by_cases hji : j < i
    · rw [if_pos hji, if_pos hji]
    · rw [if_neg hji, if_neg hji]
      by_cases hij : i = j
      · subst hij
        rw [if_pos rfl, if_pos rfl, any_take_range c days i (by omega)]
      · rw [if_neg hij, if_neg hij]
        rw [doodScan_getD c days false i hi]
        rw [any_take_range c days i (by omega)]
        simp only [Bool.false_or]

/-! ## Strip reorder (claims C1, C6) -/

lemma natStep_mem (a m N b : ℕ) (ha1 : 1 ≤ a) (haN : a ≤ N) (hm1 : 1 ≤ m)
    (hmN : m ≤ N) (hne : a ≠ m) (hb1 : 1 ≤ b) (hbN : b ≤ N) (hba : b ≠ a) :
    1 ≤ natStep a m b ∧ natStep a m b ≤ N ∧ natStep a m b ≠ m := by
  unfold natStep
  split_ifs <;> omega

lemma natStep_inv (a m b : ℕ) (hne : a ≠ m) (hba : b ≠ a) (hb1 : 1 ≤ b) :
    natStep m a (natStep a m b) = b := by
  unfold natStep
  split_ifs <;> omega

lemma natStep_perm (a m N : ℕ) (ha1 : 1 ≤ a) (haN : a ≤ N) (hm1 : 1 ≤ m)
    (hmN : m ≤ N) (hne : a ≠ m) :
    (m :: ((List.range' 1 N).erase a).map (natStep a m)).Perm (List.range' 1 N) := by
  have hnodupR : (List.range' 1 N).Nodup := List.nodup_range' 1 N
  have haR : a ∈ List.range' 1 N := List.mem_range'_1.mpr ⟨ha1, by omega⟩
  have hE : ∀ x, x ∈ (List.range' 1 N).erase a ↔ (1 ≤ x ∧ x ≤ N ∧ x ≠ a) := by
    intro x
    rw [hnodupR.mem_erase_iff, List.mem_range'_1]
    omega
  have hsub : (m :: ((List.range' 1 N).erase a).map (natStep a m)) ⊆
      List.range' 1 N := by
    intro x hx
    rcases List.mem_cons.mp hx with rfl | hx2
    · exact List.mem_range'_1.mpr ⟨hm1, by omega⟩
    · obtain ⟨b, hb, rfl⟩ := List.mem_map.mp hx2
      have hb2 := (hE b).mp hb
      have hm := natStep_mem a m N b ha1 haN hm1 hmN hne hb2.1 hb2.2.1 hb2.2.2
      exact List.mem_range'_1.mpr ⟨hm.1, by omega⟩
  have hmapnd : (((List.range' 1 N).erase a).map (natStep a m)).Nodup := by
    refine List.Nodup.map_on ?_ (hnodupR.erase a)
    intro x hx y hy hxy
    have hxE := (hE x).mp hx
    have hyE := (hE y).mp hy
    have h1 := natStep_inv a m x hne hxE.2.2 hxE.1
    have h2 := natStep_inv a m y hne hyE.2.2 hyE.1
    rw [← h1, ← h2, hxy]
  have hnodupL : (m :: ((List.range' 1 N).erase a).map (natStep a m)).Nodup := by
    rw [List.nodup_cons]
    refine ⟨?_, hmapnd⟩
    intro hmem
    obtain ⟨b, hb, hbe⟩ := List.mem_map.mp hmem
    have hb2 := (hE b).mp hb
    exact (natStep_mem a m N b ha1 haN hm1 hmN hne hb2.1 hb2.2.1 hb2.2.2).2.2 hbe
  have hlen : (List.range' 1 N).length ≤
      (m :: ((List.range' 1 N).erase a).map (natStep a m)).length := by
    rw [List.length_cons, List.length_map, List.length_erase_of_mem haR,
      List.length_range']
    omega
  exact List.Subperm.perm_of_length_le (List.subperm_of_subset hnodupL hsub) hlen

lemma qStep_cast (a m b : ℕ) (hb1 : 1 ≤ b) :
    qStep (a : ℚ) (m : ℚ) (b : ℚ) = ((natStep a m b : ℕ) : ℚ) := by
  unfold qStep natStep
  by_cases ham : a < m
  · rw [if_pos (by exact_mod_cast ham), if_pos ham]
    by_cases hb : a < b ∧ b ≤ m
    · rw [if_pos ⟨by exact_mod_cast hb.1, by exact_mod_cast hb.2⟩, if_pos hb,
        Nat.cast_sub hb1]
      norm_num
    · rw [if_neg (fun hc => hb ⟨by exact_mod_cast hc.1, by exact_mod_cast hc.2⟩),
        if_neg hb]
  · rw [if_neg (by exact_mod_cast ham), if_neg ham]
    by_cases hb : m ≤ b ∧ b < a
    · rw [if_pos ⟨by exact_mod_cast hb.1, by exact_mod_cast hb.2⟩, if_pos hb]
      push_cast
      ring
    · rw [if_neg (fun hc => hb ⟨by exact_mod_cast hc.1, by exact_mod_cast hc.2⟩),
        if_neg hb]

lemma reorderTx_perm (strips : List StripSlot) (stripId : String) (s0 : StripSlot)
    (N m : ℕ) (hm1 : 1 ≤ m) (hmN : m ≤ N)
    (hids : (strips.map (fun s => s.id)).Nodup)
    (hperm : (strips.map (fun s => s.position)).Perm
      ((List.range' 1 N).map (fun k : ℕ => (k : ℚ))))
    (hfd : strips.find? (fun s => s.id == stripId) = some s0)
    (hnem : s0.position ≠ (m : ℚ)) :
    ((reorderTx strips stripId s0.position (m : ℚ)).map (fun s => s.position)).Perm
      ((List.range' 1 N).map (fun k : ℕ => (k : ℚ))) := by
  obtain ⟨hps0, l₁, l₂, rfl, -⟩ := find?_decomp _ hfd
  have hid0 : s0.id = stripId := by simpa using hps0
  have hneids : ∀ y ∈ l₁ ++ l₂, y.id ≠ s0.id :=
    nodup_map_split (fun s : StripSlot => s.id) hids
  -- the moved strip's position is the cast of some a in 1..N
  have hmemP : s0.position ∈ (List.range' 1 N).map (fun k : ℕ => (k : ℚ)) := by
    rw [← hperm.mem_iff]
    exact List.mem_map_of_mem _ (by simp)
  obtain ⟨a, haR, has0⟩ := List.mem_map.mp hmemP
  have haB := List.mem_range'_1.mp haR
  have hanem : a ≠ m := fun he => hnem (by rw [← has0, he])
  -- positions after the transaction
  have hmap : (reorderTx (l₁ ++ s0 :: l₂) stripId s0.position (m : ℚ)).map
      (fun s => s.position) =
      (l₁ ++ s0 :: l₂).map (fun s =>
        if s.id = stripId then (m : ℚ) else qStep s0.position (m : ℚ) s.position) := by
    unfold reorderTx
    rw [List.map_map, List.map_map]
    refine List.map_congr_left ?_
    intro s _
    by_cases hsid : s.id = stripId
    · simp [shiftStep, hsid]
    · simp [shiftStep, hsid]
  rw [hmap, List.map_append, List.map_cons]
  have hf0 : (if s0.id = stripId then (m : ℚ)
      else qStep s0.position (m : ℚ) s0.position) = (m : ℚ) := if_pos hid0
  have hf1 : (l₁ ++ s0 :: l₂).map (fun s : StripSlot => s.position) =
      l₁.map (fun s => s.position) ++ s0.position :: l₂.map (fun s => s.position) := by
    rw [List.map_append, List.map_cons]
  have hrest : ∀ l : List StripSlot, (∀ y ∈ l, y.id ≠ s0.id) →
      l.map (fun s : StripSlot =>
        if s.id = stripId then (m : ℚ) else qStep s0.position (m : ℚ) s.position) =
      l.map (fun s => qStep s0.position (m : ℚ) s.position) := by
    intro l hl
    refine List.map_congr_left ?_
    intro s hs
    rw [if_neg (fun he => hl s hs (he.trans hid0.symm))]
  rw [hf0, hrest l₁ (fun y hy => hneids y (List.mem_append_left _ hy)),
    hrest l₂ (fun y hy => hneids y (List.mem_append_right _ hy))]
  -- reduce to the pure permutation fact on 1..N
  have hstep1 : (l₁.map (fun s => qStep s0.position (m : ℚ) s.position) ++
      (m : ℚ) :: l₂.map (fun s => qStep s0.position (m : ℚ) s.position)).Perm
      ((m : ℚ) :: ((l₁ ++ l₂).map (fun s => qStep s0.position (m : ℚ) s.position))) := by
    rw [List.map_append]
    exact List.perm_middle
  refine hstep1.trans ?_
  have hmapmap : (l₁ ++ l₂).map (fun s => qStep s0.position (m : ℚ) s.position) =
      ((l₁ ++ l₂).map (fun s => s.position)).map (qStep s0.position (m : ℚ)) := by
    rw [List.map_map]
    rfl
  rw [hmapmap]
  -- the non-moved positions are a permutation of the range with a erased
  have hperm2 : (s0.position :: (l₁ ++ l₂).map (fun s => s.position)).Perm
      ((List.range' 1 N).map (fun k : ℕ => (k : ℚ))) := by
    refine List.Perm.trans ?_ hperm
    rw [hf1, List.map_append]
    exact List.perm_middle.symm
  have hperm3 : ((l₁ ++ l₂).map (fun s => s.position)).Perm
      (((List.range' 1 N).map (fun k : ℕ => (k : ℚ))).erase s0.position) :=
    (List.cons_perm_iff_perm_erase.mp hperm2).2
  have hcastinj : Function.Injective (fun k : ℕ => (k : ℚ)) :=
    fun x y hxy => Nat.cast_injective hxy
  have herase : (((List.range' 1 N).map (fun k : ℕ => (k : ℚ))).erase s0.position) =
      ((List.range' 1 N).erase a).map (fun k : ℕ => (k : ℚ)) := by
    rw [← has0, List.map_erase hcastinj]
  have hperm4 : (((l₁ ++ l₂).map (fun s => s.position)).map
      (qStep s0.position (m : ℚ))).Perm
      ((((List.range' 1 N).erase a).map (fun k : ℕ => (k : ℚ))).map
        (qStep s0.position (m : ℚ))) := by
    refine List.Perm.map _ ?_
    rw [← herase]
    exact hperm3
  refine (List.Perm.cons (m : ℚ) hperm4).trans ?_
  -- transport the shift through the cast and use the nat-level permutation
  have hnodupR : (List.range' 1 N).Nodup := List.nodup_range' 1 N
  have hE : ∀ x, x ∈ (List.range' 1 N).erase a → 1 ≤ x := by
    intro x hx
    have := (hnodupR.mem_erase_iff.mp hx).2
    exact (List.mem_range'_1.mp this).1
  have hcomm : (((List.range' 1 N).erase a).map (fun k : ℕ => (k : ℚ))).map
      (qStep s0.position (m : ℚ)) =
      (((List.range' 1 N).erase a).map (natStep a m)).map (fun k : ℕ => (k : ℚ)) := by
    rw [List.map_map, List.map_map]
    refine List.map_congr_left ?_
    intro b hb
    simp only [Function.comp_apply]
    rw [← has0]
    exact qStep_cast a m b (hE b hb)
  rw [hcomm]
  have hfinal := (natStep_perm a m N haB.1 (by omega) hm1 hmN hanem).map
    (fun k : ℕ => (k : ℚ))
  rw [List.map_cons] at hfinal
  exact hfinal

/-- C1: on a schedule whose `N` strip positions are exactly `{1, …, N}`
(with unique row ids), a reorder request to an integer position
`m ∈ [1, N]` leaves the multiset of positions exactly `{1, …, N}` —
whichever branch the route takes (the shifting transaction, the
trivial no-op, or a validation failure). -/
theorem reorder_preserves_positions (strips : List StripSlot) (stripId : String)
    (N m : ℕ) (hm1 : 1 ≤ m) (hmN : m ≤ N)
    (hids : (strips.map (fun s => s.id)).Nodup)
    (hperm : (strips.map (fun s => s.position)).Perm
      ((List.range' 1 N).map (fun k : ℕ => (k : ℚ)))) :
    ((reorderPost strips stripId (m : ℚ)).2.map (fun s => s.position)).Perm
      ((List.range' 1 N).map (fun k : ℕ => (k : ℚ))) := by
  by_cases h1 : stripId = ""
  · simp only [reorderPost, if_pos h1]
    exact hperm
  by_cases h2 : (m : ℚ) < 1
  · simp only [reorderPost, if_neg h1, if_pos h2]
    exact hperm
  rcases hfd : strips.find? (fun s => s.id == stripId) with _ | s0
  · simp only [reorderPost, if_neg h1, if_neg h2, hfd]
    exact hperm
  · by_cases h3 : s0.position = (m : ℚ)
    · simp only [reorderPost, if_neg h1, if_neg h2, hfd, if_pos h3]
      exact hperm
    · by_cases h4 : jsOrOne ((strips.map (fun s => s.position)).max?) < (m : ℚ)
      · simp only [reorderPost, if_neg h1, if_neg h2, hfd, if_neg h3, if_pos h4]
        exact hperm
      · simp only [reorderPost, if_neg h1, if_neg h2, hfd, if_neg h3, if_neg h4]
        rcases htx : reorderTxChecked strips stripId s0.position (m : ℚ) with _ | strips2
        · exact hperm
        · show (strips2.map (fun s => s.position)).Perm _
          have hs2 : strips2 = reorderTx strips stripId s0.position (m : ℚ) := by
            unfold reorderTxChecked at htx
            split_ifs at htx
            exact (Option.some.inj htx).symm
          rw [hs2]
          exact reorderTx_perm strips stripId s0 N m hm1 hmN hids hperm hfd h3

/-- Witness for C1: moving strip "a" from position 1 to position 3 of a
three-strip schedule keeps the position set `{1, 2, 3}`. -/
theorem reorder_preserves_positions_witness :
    ((reorderPost [⟨"a", 1⟩, ⟨"b", 2⟩, ⟨"c", 3⟩] "a" ((3 : ℕ) : ℚ)).2.map
      (fun s => s.position)).Perm
      ((List.range' 1 3).map (fun k : ℕ => (k : ℚ))) := by
  refine reorder_preserves_positions [⟨"a", 1⟩, ⟨"b", 2⟩, ⟨"c", 3⟩] "a" 3 3
    (by norm_num) (by norm_num) (by decide) ?_
  have : (List.range' 1 3).map (fun k : ℕ => (k : ℚ)) = [1, 2, 3] := by
    simp [List.range']
  rw [this]
  rfl

/-- C6 (amended): with a well-formed request (`stripId` a non-empty
string, `newPosition` a number at least 1) an unknown `stripId` fails
NotFound; `newPosition < 1` fails InvalidArgument (HTTP 400); for an
existing strip at a different position, `newPosition` above the maximum
position fails InvalidArgument; a non-integer `newPosition` inside the
range is not rejected by the route's validation — it reaches the
transaction, whose integer-column validation throws, and the route
reports the catch-all internal error (HTTP 500); and every failing
call, that one included, leaves the strip rows unchanged. -/
theorem reorder_error_handling :
    (∀ (strips : List StripSlot) (stripId : String) (q : ℚ),
        stripId ≠ "" → ¬ q < 1 →
        strips.find? (fun s => s.id == stripId) = none →
        (reorderPost strips stripId q).1 = ReorderOutcome.notFound) ∧
    (∀ (strips : List StripSlot) (stripId : String) (q : ℚ),
        stripId ≠ "" → q < 1 →
        (reorderPost strips stripId q).1 = ReorderOutcome.badRequest) ∧
    (∀ (strips : List StripSlot) (stripId : String) (q : ℚ) (s0 : StripSlot),
        stripId ≠ "" → ¬ q < 1 →
        strips.find? (fun s => s.id == stripId) = some s0 →
        s0.position ≠ q →
        jsOrOne ((strips.map (fun s => s.position)).max?) < q →
        (reorderPost strips stripId q).1 = ReorderOutcome.badRequest) ∧
    (∀ (strips : List StripSlot) (stripId : String) (q : ℚ) (s0 : StripSlot),
        stripId ≠ "" → ¬ q < 1 →
        strips.find? (fun s => s.id == stripId) = some s0 →
        s0.position ≠ q →
        ¬ jsOrOne ((strips.map (fun s => s.position)).max?) < q →
        ¬ (s0.position.den = 1 ∧ q.den = 1) →
        (reorderPost strips stripId q).1 = ReorderOutcome.internalError) ∧
    (∀ (strips : List StripSlot) (stripId : String) (q : ℚ),
        (reorderPost strips stripId q).1 = ReorderOutcome.badRequest ∨
        (reorderPost strips stripId q).1 = ReorderOutcome.notFound ∨
        (reorderPost strips stripId q).1 = ReorderOutcome.internalError →
        (reorderPost strips stripId q).2 = strips) := by
  refine ⟨?_, ?_, ?_, ?_, ?_⟩
  · intro strips stripId q h1 h2 hfd
    simp only [reorderPost, if_neg h1, if_neg h2, hfd]
  · intro strips stripId q h1 h2
    simp only [reorderPost, if_neg h1, if_pos h2]
  · intro strips stripId q s0 h1 h2 hfd h3 h4
    simp only [reorderPost, if_neg h1, if_neg h2, hfd, if_neg h3, if_pos h4]
  · intro strips stripId q s0 h1 h2 hfd h3 h4 hint
    have htx : reorderTxChecked strips stripId s0.position q = none := by
      unfold reorderTxChecked
      rw [if_neg hint]
    simp only [reorderPost, if_neg h1, if_neg h2, hfd, if_neg h3, if_neg h4, htx]
  · intro strips stripId q hfail
    by_cases h1 : stripId = ""
    · simp only [reorderPost, if_pos h1]
    by_cases h2 : q < 1
    · simp only [reorderPost, if_neg h1, if_pos h2]
    rcases hfd : strips.find? (fun s => s.id == stripId) with _ | s0
    · simp only [reorderPost, if_neg h1, if_neg h2, hfd]
    by_cases h3 : s0.position = q
    · simp only [reorderPost, if_neg h1, if_neg h2, hfd, if_pos h3]
    by_cases h4 : jsOrOne ((strips.map (fun s => s.position)).max?) < q
    · simp only [reorderPost, if_neg h1, if_neg h2, hfd, if_neg h3, if_pos h4]
    rcases htx : reorderTxChecked strips stripId s0.position q with _ | strips2
    · simp only [reorderPost, if_neg h1, if_neg h2, hfd, if_neg h3, if_neg h4, htx]
    · exfalso
      simp only [reorderPost, if_neg h1, if_neg h2, hfd, if_neg h3, if_neg h4, htx]
        at hfail
      rcases hfail with h | h | h <;> exact ReorderOutcome.noConfusion h

/-- Witness for C6 (amended): an unknown strip id on a one-strip
schedule fails NotFound. -/
theorem reorder_error_handling_witness :
    (reorderPost [⟨"a", 1⟩] "b" 1).1 = ReorderOutcome.notFound := by
  refine reorder_error_handling.1 [⟨"a", 1⟩] "b" 1 (by decide) (by norm_num) ?_
  rw [List.find?_eq_none]
  intro x hx
  rcases List.mem_singleton.mp hx with rfl
  decide

/-- C6 as stated is false for the non-integer clause: `newPosition =
3/2` on a two-strip schedule with positions `{1, 2}` passes every
route-level validation — no InvalidArgument response is produced — and
reaches the transaction, whose integer-column validation throws, so the
route reports the catch-all internal error (HTTP 500) and the positions
stay unchanged. -/
theorem reorder_nonInteger_counterexample :
    (reorderPost [⟨"a", 1⟩, ⟨"b", 2⟩] "a" (3 / 2)).1 =
      ReorderOutcome.internalError ∧
    (reorderPost [⟨"a", 1⟩, ⟨"b", 2⟩] "a" (3 / 2)).2 = [⟨"a", 1⟩, ⟨"b", 2⟩] := by
  have hfd : ([(⟨"a", 1⟩ : StripSlot), ⟨"b", 2⟩].find?
      (fun s => s.id == "a")) = some ⟨"a", 1⟩ := by
    rw [List.find?_cons]
    norm_num
  have hmax : (([(⟨"a", 1⟩ : StripSlot), ⟨"b", 2⟩].map
      (fun s => s.position)).max?) = some 2 := by
    show ([(1 : ℚ), 2].max?) = some 2
    rw [List.max?_cons, List.max?_cons, List.max?_nil]
    norm_num [max_def]
  have hden : ¬ (((1 : ℚ)).den = 1 ∧ (((3 : ℚ) / 2)).den = 1) := by
    rintro ⟨-, h⟩
    have h2 : (((((3 : ℚ) / 2)).num : ℤ) : ℚ) = (3 : ℚ) / 2 := by
      have h3 := Rat.num_div_den ((3 : ℚ) / 2)
      rw [h, Nat.cast_one, div_one] at h3
      exact h3
    have h4 : (2 : ℚ) * (((((3 : ℚ) / 2)).num : ℤ) : ℚ) = 3 := by
      rw [h2]
      ring
    have h5 : (2 * (((3 : ℚ) / 2)).num : ℤ) = 3 := by exact_mod_cast h4
    omega
  have htx : reorderTxChecked [⟨"a", 1⟩, ⟨"b", 2⟩] "a" 1 (3 / 2) = none := by
    unfold reorderTxChecked
    rw [if_neg hden]
  constructor <;>
  · simp only [reorderPost, hfd, hmax, jsOrOne]
    norm_num
    rw [if_neg (show ¬(("a" : String) = "") from by decide), htx]

/-! ## Page-count parsing and formatting (claims C5, C9, C10) -/

lemma digitChar_isDigit (n : ℕ) (h : n < 10) : (digitChar n).isDigit = true := by
  interval_cases n <;> decide

lemma digitVal_digitChar (n : ℕ) (h : n < 10) : digitVal (digitChar n) = n := by
  interval_cases n <;> decide

lemma isDigit_props (c : Char) (h : c.isDigit = true) :
    isWs c = false ∧ c ≠ '/' ∧ c ≠ '.' ∧ c ≠ '-' ∧ c ≠ '+' ∧ c ≠ ' ' := by
  refine ⟨?_, ?_, ?_, ?_, ?_, ?_⟩
  · cases hw : isWs c
    · rfl
    · exfalso
      have hw2 : c = ' ' ∨ c = '\t' ∨ c = '\n' ∨ c = '\r' := by
        simpa [isWs, Bool.or_eq_true, beq_iff_eq, or_assoc] using hw
      rcases hw2 with rfl | rfl | rfl | rfl <;> exact absurd h (by decide)
  · rintro rfl; exact absurd h (by decide)
  · rintro rfl; exact absurd h (by decide)
  · rintro rfl; exact absurd h (by decide)
  · rintro rfl; exact absurd h (by decide)
  · rintro rfl; exact absurd h (by decide)

lemma natDecimal_spec (n : ℕ) :
    natDecimal n ≠ [] ∧ (natDecimal n).all Char.isDigit = true ∧
      digitsToNat (natDecimal n) = n := by
  induction n using Nat.strong_induction_on with
  | _ n ih =>
    by_cases h : n < 10
    · rw [natDecimal, dif_pos h]
      refine ⟨by simp, by simp [digitChar_isDigit n h], ?_⟩
      simp [digitsToNat, digitVal_digitChar n h]
    · rw [natDecimal, dif_neg h]
      obtain ⟨hne, hall, hval⟩ := ih (n / 10) (Nat.div_lt_self (by omega) (by omega))
      refine ⟨by simp, ?_, ?_⟩
      · rw [List.all_eq_true]
        intro x hx
        rcases List.mem_append.mp hx with hx1 | hx2
        · exact List.all_eq_true.mp hall x hx1
        · rcases List.mem_singleton.mp hx2 with rfl
          exact digitChar_isDigit _ (Nat.mod_lt _ (by omega))
      · unfold digitsToNat
        rw [List.foldl_append]
        have : digitsToNat (natDecimal (n / 10)) = n / 10 := hval
        unfold digitsToNat at this
        rw [this, List.foldl_cons, List.foldl_nil,
          digitVal_digitChar _ (Nat.mod_lt _ (by omega))]
        omega

lemma mem_natDecimal_isDigit (n : ℕ) (c : Char) (h : c ∈ natDecimal n) :
    c.isDigit = true :=
  List.all_eq_true.mp (natDecimal_spec n).2.1 c h

lemma splitOnChar_ne_nil (sep : Char) : ∀ cs, splitOnChar sep cs ≠ [] := by
  intro cs
  induction cs with
  | nil => simp [splitOnChar]
  | cons c rest ih =>
    rw [splitOnChar]
    rcases hsp : splitOnChar sep rest with _ | ⟨p, ps⟩
    · exact absurd hsp ih
    · by_cases hc : c = sep <;> simp [hc]

lemma splitOnChar_of_not_mem (sep : Char) (cs : List Char) (h : sep ∉ cs) :
    splitOnChar sep cs = [cs] := by
  induction cs with
  | nil => rfl
  | cons c rest ih =>
    have hc : ¬ c = sep := fun he => h (he ▸ List.mem_cons_self c rest)
    have hr : sep ∉ rest := fun hm => h (List.mem_cons_of_mem _ hm)
    rw [splitOnChar, ih hr]
    simp [hc]

lemma splitOnChar_append (sep : Char) (a b : List Char) (h : sep ∉ a) :
    splitOnChar sep (a ++ sep :: b) = a :: splitOnChar sep b := by
  induction a with
  | nil =>
    rw [List.nil_append, splitOnChar]
    rcases hsp : splitOnChar sep b with _ | ⟨p, ps⟩
    · exact absurd hsp (splitOnChar_ne_nil sep b)
    · simp
  | cons c rest ih =>
    have hc : ¬ c = sep := fun he => h (he ▸ List.mem_cons_self c rest)
    have hr : sep ∉ rest := fun hm => h (List.mem_cons_of_mem _ hm)
    rw [List.cons_append, splitOnChar, ih hr]
    simp [hc]

lemma trimChars_of_ends (cs : List Char) (hne : cs ≠ [])
    (hh : isWs (cs.headD 'x') = false) (hl : isWs (cs.getLast hne) = false) :
    trimChars cs = cs := by
  obtain ⟨c, rest, rfl⟩ := List.exists_cons_of_ne_nil hne
  have hh2 : isWs c = false := hh
  have hrevne : (c :: rest).reverse ≠ [] := by simp
  obtain ⟨d, rev2, hrev⟩ := List.exists_cons_of_ne_nil hrevne
  have hd : d = (c :: rest).getLast hne := by
    have h1 := List.getLast?_eq_getLast (c :: rest) hne
    rw [List.getLast?_eq_head?_reverse, hrev] at h1
    simpa using h1
  have hld : isWs d = false := by rw [hd]; exact hl
  unfold trimChars
  rw [List.dropWhile_cons, hh2]
  simp only [Bool.false_eq_true, if_false]
  rw [hrev, List.dropWhile_cons, hld]
  simp only [Bool.false_eq_true, if_false]
  rw [← hrev, List.reverse_reverse]

lemma trimChars_all_not_ws (cs : List Char) (h : ∀ x ∈ cs, isWs x = false) :
    trimChars cs = cs := by
  rcases cs with _ | ⟨c, rest⟩
  · rfl
  · refine trimChars_of_ends (c :: rest) (by simp) (h c (by simp)) ?_
    exact h _ (List.getLast_mem _)

lemma jsNumber_natDecimal (n : ℕ) : jsNumber (natDecimal n) = .num (n : ℚ) := by
  obtain ⟨hne, hall, hval⟩ := natDecimal_spec n
  have hws : ∀ x ∈ natDecimal n, isWs x = false :=
    fun x hx => (isDigit_props x (mem_natDecimal_isDigit n x hx)).1
  unfold jsNumber
  rw [trimChars_all_not_ws _ hws, if_neg hne]
  obtain ⟨hd, tl, heq⟩ := List.exists_cons_of_ne_nil hne
  have hdd : hd.isDigit = true := mem_natDecimal_isDigit n hd (by rw [heq]; simp)
  have hsign : signSplit (natDecimal n) = (false, natDecimal n) := by
    rw [heq, signSplit]
    rw [if_neg (isDigit_props hd hdd).2.2.2.1, if_neg (isDigit_props hd hdd).2.2.2.2.1]
  rw [hsign]
  have hdot : '.' ∉ natDecimal n := fun hm =>
    (isDigit_props _ (mem_natDecimal_isDigit n _ hm)).2.2.1 rfl
  have hdec : decimalVal (natDecimal n) = some ((n : ℕ) : ℚ) := by
    unfold decimalVal
    rw [splitOnChar_of_not_mem '.' _ hdot]
    show (if natDecimal n ≠ [] ∧ (natDecimal n).all Char.isDigit = true
        then some ((digitsToNat (natDecimal n) : ℕ) : ℚ) else none) =
      some ((n : ℕ) : ℚ)
    rw [if_pos ⟨hne, hall⟩, hval]
  show (match decimalVal (natDecimal n) with
    | some q => JSNum.num (if (false : Bool) = true then -q else q)
    | none => JSNum.nan) = JSNum.num (n : ℚ)
  rw [hdec]
  rfl

lemma space_not_mem_natDecimal (n : ℕ) : ' ' ∉ natDecimal n := fun hm =>
  (isDigit_props _ (mem_natDecimal_isDigit n _ hm)).2.2.2.2.2 rfl

lemma slash_not_mem_natDecimal (n : ℕ) : '/' ∉ natDecimal n := fun hm =>
  (isDigit_props _ (mem_natDecimal_isDigit n _ hm)).2.1 rfl

lemma natDecimal_eight : natDecimal 8 = ['8'] := by
  rw [natDecimal, dif_pos (by norm_num : (8 : ℕ) < 10)]
  decide

lemma parsePage_digits (n : ℕ) : parsePageCount (natDecimal n) = .num (n : ℚ) := by
  obtain ⟨hne, hall, -⟩ := natDecimal_spec n
  have hws : ∀ x ∈ natDecimal n, isWs x = false :=
    fun x hx => (isDigit_props x (mem_natDecimal_isDigit n x hx)).1
  simp only [parsePageCount, if_neg hne, trimChars_all_not_ws _ hws,
    splitOnChar_of_not_mem ' ' _ (space_not_mem_natDecimal n), List.foldl_cons,
    List.foldl_nil]
  rw [if_neg (slash_not_mem_natDecimal n), jsNumber_natDecimal]
  simp only [jsOrZero, jsAdd, zero_add]

lemma frac_token_not_ws (r : ℕ) : ∀ x ∈ natDecimal r ++ ['/', '8'], isWs x = false := by
  intro x hx
  rcases List.mem_append.mp hx with h1 | h2
  · exact (isDigit_props x (mem_natDecimal_isDigit r x h1)).1
  · rcases (by simpa using h2 : x = '/' ∨ x = '8') with rfl | rfl <;> decide

lemma space_not_mem_frac_token (r : ℕ) : ' ' ∉ natDecimal r ++ ['/', '8'] := by
  intro hm
  rcases List.mem_append.mp hm with h1 | h2
  · exact (isDigit_props _ (mem_natDecimal_isDigit r _ h1)).2.2.2.2.2 rfl
  · exact absurd (by simpa using h2 : (' ' = '/' ∨ ' ' = '8')) (by decide)

lemma parsePage_frac (r : ℕ) :
    parsePageCount (natDecimal r ++ ['/', '8']) = .num ((r : ℚ) / 8) := by
  have hne2 : natDecimal r ++ ['/', '8'] ≠ [] := by simp
  have hmem : '/' ∈ natDecimal r ++ ['/', '8'] :=
    List.mem_append_right _ (List.mem_cons_self _ _)
  simp only [parsePageCount, if_neg hne2, trimChars_all_not_ws _ (frac_token_not_ws r),
    splitOnChar_of_not_mem ' ' _ (space_not_mem_frac_token r), List.foldl_cons,
    List.foldl_nil]
  rw [if_pos hmem,
    show natDecimal r ++ ['/', '8'] = natDecimal r ++ '/' :: ['8'] from rfl,
    splitOnChar_append '/' _ _ (slash_not_mem_natDecimal r),
    splitOnChar_of_not_mem '/' ['8'] (by decide)]
  show jsAdd (.num 0) (jsDiv (jsNumber (natDecimal r)) (jsNumber ['8'])) =
    .num ((r : ℚ) / 8)
  rw [jsNumber_natDecimal r, show jsNumber ['8'] = .num ((8 : ℕ) : ℚ) from by
    rw [← natDecimal_eight]; exact jsNumber_natDecimal 8]
  simp only [jsDiv, jsAdd]
  rw [if_neg (by norm_num : ¬ (((8 : ℕ) : ℚ) = 0))]
  norm_num

lemma parsePage_two (w r : ℕ) :
    parsePageCount (natDecimal w ++ ' ' :: (natDecimal r ++ ['/', '8'])) =
      .num ((w : ℚ) + (r : ℚ) / 8) := by
  have hne2 : natDecimal w ++ ' ' :: (natDecimal r ++ ['/', '8']) ≠ [] := by
    simp
  obtain ⟨hd, tl, hwd⟩ := List.exists_cons_of_ne_nil (natDecimal_spec w).1
  have htrim : trimChars (natDecimal w ++ ' ' :: (natDecimal r ++ ['/', '8'])) =
      natDecimal w ++ ' ' :: (natDecimal r ++ ['/', '8']) := by
    refine trimChars_of_ends _ hne2 ?_ ?_
    · rw [hwd, List.cons_append]
      exact (isDigit_props hd (mem_natDecimal_isDigit w hd (by rw [hwd]; simp))).1
    · have hshape : natDecimal w ++ ' ' :: (natDecimal r ++ ['/', '8']) =
          (natDecimal w ++ ' ' :: natDecimal r ++ ['/']) ++ ['8'] := by
        simp
      have h1 : (natDecimal w ++ ' ' :: (natDecimal r ++ ['/', '8'])).getLast? =
          some '8' := by
        rw [hshape]
        exact List.getLast?_concat _
      have h2 := List.getLast?_eq_getLast
        (natDecimal w ++ ' ' :: (natDecimal r ++ ['/', '8'])) hne2
      rw [h1] at h2
      have h3 : (natDecimal w ++ ' ' :: (natDecimal r ++ ['/', '8'])).getLast hne2 =
          '8' := (Option.some.inj h2).symm
      rw [h3]
      decide
  simp only [parsePageCount, if_neg hne2, htrim]
  rw [show natDecimal w ++ ' ' :: (natDecimal r ++ ['/', '8']) =
      natDecimal w ++ ' ' :: (natDecimal r ++ ['/', '8']) from rfl,
    splitOnChar_append ' ' _ _ (space_not_mem_natDecimal w),
    splitOnChar_of_not_mem ' ' _ (space_not_mem_frac_token r)]
  simp only [List.foldl_cons, List.foldl_nil]
  rw [if_neg (slash_not_mem_natDecimal w), jsNumber_natDecimal w]
  have hmem : '/' ∈ natDecimal r ++ ['/', '8'] :=
    List.mem_append_right _ (List.mem_cons_self _ _)
  rw [if_pos hmem,
    show natDecimal r ++ ['/', '8'] = natDecimal r ++ '/' :: ['8'] from rfl,
    splitOnChar_append '/' _ _ (slash_not_mem_natDecimal r),
    splitOnChar_of_not_mem '/' ['8'] (by decide)]
  show jsAdd (jsAdd (.num 0) (jsOrZero (.num (w : ℚ))))
      (jsDiv (jsNumber (natDecimal r)) (jsNumber ['8'])) =
    .num ((w : ℚ) + (r : ℚ) / 8)
  rw [jsNumber_natDecimal r, show jsNumber ['8'] = .num ((8 : ℕ) : ℚ) from by
    rw [← natDecimal_eight]; exact jsNumber_natDecimal 8]
  simp only [jsDiv, jsAdd, jsOrZero]
  rw [if_neg (by norm_num : ¬ (((8 : ℕ) : ℚ) = 0))]
  norm_num

lemma intDecimal_natCast (n : ℕ) : intDecimal (n : ℤ) = natDecimal n := by
  unfold intDecimal
  rw [if_neg (not_lt.mpr (Int.natCast_nonneg n)), Int.toNat_natCast]

lemma exists_nat_eighths (x : ℚ) (hx : 0 ≤ x) (hden : (x.den : ℕ) ∣ 8) :
    ∃ k : ℕ, x = (k : ℚ) / 8 := by
  obtain ⟨c, hc⟩ := hden
  have hc0 : c ≠ 0 := by rintro rfl; simp at hc
  have hnum : 0 ≤ x.num := Rat.num_nonneg.mpr hx
  refine ⟨x.num.toNat * c, ?_⟩
  have hn : (x.num.toNat : ℤ) = x.num := Int.toNat_of_nonneg hnum
  have h1 : ((x.num.toNat * c : ℕ) : ℚ) = (x.num : ℚ) * (c : ℚ) := by
    rw [Nat.cast_mul]
    congr 1
    exact_mod_cast hn
  have h8 : ((8 : ℚ)) = (x.den : ℚ) * (c : ℚ) := by exact_mod_cast hc
  rw [h1, h8, mul_div_mul_right _ _ (by exact_mod_cast hc0 : (c : ℚ) ≠ 0)]
  exact (Rat.num_div_den x).symm

/-- C5 (code bug): a malformed fraction token does not contribute 0 —
`parsePageCount` divides `Number("3") / Number("x") = NaN` and the NaN
poisons the whole sum, so `"1 3/x"` (and `"3/x"` alone) parse to NaN
rather than to the sum of the well-formed tokens. -/
theorem parsePageCount_malformed_fraction_nan :
    parsePageCount ('1' :: ' ' :: '3' :: '/' :: ['x']) = JSNum.nan ∧
    parsePageCount ('3' :: '/' :: ['x']) = JSNum.nan := by
  constructor <;> decide

/-- C9: parsing back a formatted page count recovers the value exactly,
for every non-negative rational whose denominator divides 8; in
particular `formatPageCount 0 = "0"` and `parsePageCount "0" = 0`. -/
theorem parse_format_roundtrip (x : ℚ) (hx : 0 ≤ x) (hden : (x.den : ℕ) ∣ 8) :
    parsePageCount (formatPageCount x) = JSNum.num x ∧
    formatPageCount 0 = ['0'] ∧ parsePageCount ['0'] = JSNum.num 0 := by
  have hzero : formatPageCount 0 = ['0'] := by
    have hround : jsRound (((0 : ℚ) - ((0 : ℤ) : ℚ)) * 8) = 0 := by
      unfold jsRound
      rw [show ((0 : ℚ) - ((0 : ℤ) : ℚ)) * 8 + 1 / 2 = 1 / 2 by norm_num]
      rw [Int.floor_eq_iff]
      constructor <;> norm_num
    simp only [formatPageCount, Int.floor_zero, hround]
    rw [if_pos trivial, show (0 : ℤ) = ((0 : ℕ) : ℤ) from rfl, intDecimal_natCast,
      natDecimal, dif_pos (by norm_num : (0 : ℕ) < 10)]
    decide
  have hparse0 : parsePageCount ['0'] = JSNum.num 0 := by
    have h0 : natDecimal 0 = ['0'] := by
      rw [natDecimal, dif_pos (by norm_num : (0 : ℕ) < 10)]
      decide
    rw [← h0, parsePage_digits 0]
    norm_num
  refine ⟨?_, hzero, hparse0⟩
  obtain ⟨k, rfl⟩ := exists_nat_eighths x hx hden
  obtain ⟨w, r, hr8, rfl⟩ : ∃ w r, r < 8 ∧ k = 8 * w + r :=
    ⟨k / 8, k % 8, by omega, by omega⟩
  have hfloor : Int.floor (((8 * w + r : ℕ) : ℚ) / 8) = (w : ℤ) := by
    rw [Int.floor_eq_iff]
    constructor
    · rw [le_div_iff (by norm_num : (0 : ℚ) < 8)]
      have : (w * 8 : ℕ) ≤ 8 * w + r := by omega
      exact_mod_cast this
    · rw [div_lt_iff (by norm_num : (0 : ℚ) < 8)]
      have : (8 * w + r : ℕ) < (w + 1) * 8 := by omega
      exact_mod_cast this
  have hfrac : ((8 * w + r : ℕ) : ℚ) / 8 - ((w : ℤ) : ℚ) = (r : ℚ) / 8 := by
    push_cast
    ring
  have heighths : jsRound ((((r : ℕ) : ℚ) / 8) * 8) = (r : ℤ) := by
    rw [show (((r : ℕ) : ℚ) / 8) * 8 = (r : ℚ) by field_simp]
    unfold jsRound
    rw [Int.floor_eq_iff]
    constructor
    · push_cast
      linarith
    · push_cast
      linarith
  simp only [formatPageCount, hfloor, hfrac, heighths]
  by_cases hr0 : r = 0
  · rw [if_pos (by exact_mod_cast hr0 : (r : ℤ) = 0), intDecimal_natCast,
      parsePage_digits]
    subst hr0
    congr 1
    push_cast
    ring
  · rw [if_neg (by exact_mod_cast hr0 : ¬ ((r : ℤ) = 0))]
    by_cases hw0 : w = 0
    · rw [if_pos (by exact_mod_cast hw0 : ((w : ℤ)) = 0),
        show (r : ℤ) = ((r : ℕ) : ℤ) from rfl, intDecimal_natCast, parsePage_frac]
      subst hw0
      congr 1
      push_cast
      ring
    · rw [if_neg (by exact_mod_cast hw0 : ¬ (((w : ℤ)) = 0)), intDecimal_natCast,
        show (r : ℤ) = ((r : ℕ) : ℤ) from rfl, intDecimal_natCast, parsePage_two]
      congr 1
      push_cast
      ring

/-- Witness for C9 at `x = 2` (denominator 1 divides 8). -/
theorem parse_format_roundtrip_witness :
    parsePageCount (formatPageCount 2) = JSNum.num 2 :=
  (parse_format_roundtrip 2 (by norm_num)
    (by rw [Rat.den_ofNat]; exact one_dvd 8)).1

/-- C10: a fractional part that rounds to eight eighths is rendered as
`"⌊p⌋ 8/8"` (or `"8/8"` when the whole part is zero) — the carry is
never normalized into the whole-page digit; in particular
`formatPageCount (15/16) = "8/8"`. -/
theorem formatPageCount_no_carry :
    (∀ p : ℚ, 0 ≤ p → 15 / 16 < p - ((Int.floor p : ℤ) : ℚ) →
      formatPageCount p =
        (if Int.floor p = 0 then ['8', '/', '8']
         else intDecimal (Int.floor p) ++ ' ' :: ['8', '/', '8'])) ∧
    formatPageCount (15 / 16) = ['8', '/', '8'] := by
  have hdec8 : intDecimal ((8 : ℕ) : ℤ) = ['8'] := by
    rw [intDecimal_natCast, natDecimal_eight]
  constructor
  · intro p hp hfrac
    have hlt1 : p - ((Int.floor p : ℤ) : ℚ) < 1 := by
      have h := Int.fract_lt_one p
      rw [← Int.self_sub_floor p] at h
      exact h
    have heq8 : jsRound ((p - ((Int.floor p : ℤ) : ℚ)) * 8) = 8 := by
      unfold jsRound
      rw [Int.floor_eq_iff]
      constructor
      · push_cast
        linarith
      · push_cast
        linarith
    simp only [formatPageCount, heq8]
    rw [if_neg (by norm_num : ¬ ((8 : ℤ) = 0))]
    by_cases h0 : Int.floor p = 0
    · rw [if_pos h0, if_pos h0, show (8 : ℤ) = ((8 : ℕ) : ℤ) from rfl, hdec8]
      rfl
    · rw [if_neg h0, if_neg h0, show (8 : ℤ) = ((8 : ℕ) : ℤ) from rfl, hdec8]
      rfl
  · have hfl : Int.floor ((15 : ℚ) / 16) = 0 := by
      rw [Int.floor_eq_iff]
      constructor <;> norm_num
    have heq8 : jsRound (((15 : ℚ) / 16 - ((0 : ℤ) : ℚ)) * 8) = 8 := by
      unfold jsRound
      rw [show (((15 : ℚ) / 16 - ((0 : ℤ) : ℚ)) * 8 + 1 / 2) = 8 by norm_num]
      rw [show ((8 : ℚ)) = (((8 : ℤ)) : ℚ) by norm_num, Int.floor_intCast]
    simp only [formatPageCount, hfl, heq8]
    rw [if_pos trivial, show (8 : ℤ) = ((8 : ℕ) : ℤ) from rfl, hdec8,
      if_neg (by norm_num : ¬ (((8 : ℕ) : ℤ) = 0))]
    rfl

/-- Witness for C10 at `p = 31/32`. -/
theorem formatPageCount_no_carry_witness :
    formatPageCount ((31 : ℚ) / 32) = ['8', '/', '8'] := by
  have hfl : Int.floor ((31 : ℚ) / 32) = 0 := by
    rw [Int.floor_eq_iff]
    constructor <;> norm_num
  have h := formatPageCount_no_carry.1 ((31 : ℚ) / 32) (by norm_num)
    (by rw [hfl]; norm_num)
  rw [hfl] at h
  simpa using h

end StripBoard
